import Mathlib

/-!
# Shallow embedding of the Raven paged inverted index (searchengine package)

This file embeds the Go source of `searchengine/inverted_index.go` and
`searchengine/stopword_cleaning.go` into Lean and proves the spec's testable
properties about it.

Modelling conventions:

* A Go `map[string][]int` (`InvertedIndex`) is embedded as an association list
  `List (String × List Int)` with unique keys maintained by the insert
  operation; `len(m)` (number of distinct keys) corresponds to list length.
* Go `int` document ids and the configured page size are embedded as `Int`;
  the page-id counter `CurrentID` starts at `0` and is only ever incremented,
  so it is embedded as `Nat`.
* The page directory (filesystem) is embedded as a list of
  `(filename, file contents)` pairs in write order.  A file is either a
  well-formed page (`PageFile.good`) or a file whose read or JSON
  deserialization fails (`PageFile.bad`).  `os.WriteFile` replaces the file
  of that name if it exists, and otherwise appends a new one.  Directory
  enumeration order is abstracted as the store's list order (search results
  are deduplicated sets, and no claim depends on enumeration order).  The
  contents a failed `os.WriteFile` may leave behind are not modelled; no
  claim depends on them.
* Fallible I/O (`json.Marshal`, `os.WriteFile`) is embedded by explicit
  success flags passed to the operation; the Go functions log and return on
  failure.
* The scalable Bloom filter lives in `searchengine/bloomfilter`, whose source
  is not part of this snapshot; it is modelled from the spec (see
  `bloomAdd` / `bloomTest` below).
* The external tokenizer (`nlp.Tokenize_Query`) and the language detection /
  stopword collaborators are external packages; they are taken as function
  parameters.
-/

/-- `strings.ToLower`, character by character over the rune sequence (ASCII
case mapping; the exact case table does not matter for any claim). -/
def toLowerStr (s : String) : String := String.mk (s.data.map Char.toLower)

/-- The worker of `strings.Fields`: walk the rune sequence, accumulating the
current word (in reverse) and emitting it at each whitespace run or at the
end. -/
def fieldsAux : List Char → List Char → List String
  | cur, [] => if cur = [] then [] else [String.mk cur.reverse]
  | cur, c :: cs =>
    if c.isWhitespace then
      if cur = [] then fieldsAux [] cs
      else String.mk cur.reverse :: fieldsAux [] cs
    else fieldsAux (c :: cur) cs

/-- `strings.Fields`: split around runs of whitespace, dropping empty fields. -/
def fields (s : String) : List String := fieldsAux [] s.data

/-- `InvertedIndex`: Go `map[string][]int`, embedded as an association list
with unique keys; the list length is the number of distinct terms. -/
abbrev InvertedIndex := List (String × List Int)

/-- Map lookup `m[token]` on an `InvertedIndex`. -/
def lookupIdx : InvertedIndex → String → Option (List Int)
  | [], _ => none
  | (k, v) :: rest, t => if k = t then some v else lookupIdx rest t

/-- The posting append of `UpdateInvertedIndexWithDoc`'s loop body:
`if _, ok := m[token]; !ok { m[token] = []int{} }; m[token] = append(m[token], doc.ID)`. -/
def insertPosting : InvertedIndex → String → Int → InvertedIndex
  | [], tok, d => [(tok, [d])]
  | (k, v) :: rest, tok, d =>
    if k = tok then (k, v ++ [d]) :: rest
    else (k, v) :: insertPosting rest tok d

/-- A durable page: `type Page struct { ID int; Index InvertedIndex }`. -/
structure Page where
  ID : Nat
  Index : InvertedIndex
  deriving DecidableEq

/-- One file of the page directory: either a readable, well-formed page, or a
file on which `os.ReadFile` or `json.Unmarshal` fails during `Search`. -/
inductive PageFile where
  | good : Page → PageFile
  | bad : PageFile
  deriving DecidableEq

/-- The page directory: filename/contents pairs in write order. -/
abbrev PageStore := List (String × PageFile)

/-- `os.WriteFile`: replace the file of this name if present, else create it. -/
def writeFile : PageStore → String → PageFile → PageStore
  | [], name, c => [(name, c)]
  | (n, d) :: rest, name, c =>
    if n = name then (name, c) :: rest else (n, d) :: writeFile rest name c

/-- The decimal digit character for `d < 10` (the `%d` format of
`fmt.Sprintf`). -/
def digitChar (d : Nat) : Char := Char.ofNat (48 + d)

/-- Fuel-driven worker for the decimal representation of a natural number
(fuel only makes the recursion structural; `natDecimalAux_congr` shows any
sufficient fuel gives the same digits). -/
def natDecimalAux : Nat → Nat → List Char
  | 0, _ => []
  | fuel + 1, n =>
    if n < 10 then [digitChar n]
    else natDecimalAux fuel (n / 10) ++ [digitChar (n % 10)]

/-- Decimal representation of a natural number, most significant digit first
(the `%d` format of `fmt.Sprintf` for the non-negative page counter). -/
def natDecimal (n : Nat) : List Char := natDecimalAux (n + 1) n

/-- `filepath.Join(pii.PagesDir, fmt.Sprintf("page_%d.json", pii.CurrentID))`. -/
def pageFileName (dir : String) (id : Nat) : String :=
  String.mk (dir.data ++ "/page_".data ++ natDecimal id ++ ".json".data)

/-- Modelled from the spec: the scalable Bloom filter state
(`searchengine/bloomfilter`, not part of this source snapshot) is abstracted
as the set of terms passed to `Add`; `Add` records the term and always
succeeds. -/
def bloomAdd (added : List String) (t : String) : List String := t :: added

/-- Modelled from the spec: `Test` reports "possibly present" for every term
previously `Add`ed (the spec's no-false-negative invariant) and "definitely
absent" otherwise.  False positives and internal `Test` errors enlarge the
filter's possible answers; theorems about the error and absent paths of
`Search` quantify over `FilterAnswer` instead (see `searchCore`). -/
def bloomTest (added : List String) (t : String) : Bool := added.contains t

/-- `type PagedInvertedIndex struct`: engine configuration and mutable state. -/
structure PagedInvertedIndex where
  PageSize : Int
  PagesDir : String
  CurrentID : Nat
  CurrentIdx : InvertedIndex
  BloomAdded : List String

/-- The engine together with its page directory. -/
structure SysState where
  pii : PagedInvertedIndex
  fs : PageStore

/-- `NewPagedInvertedIndex(pageSize, pagesDir)` over a fresh page directory. -/
def NewPagedInvertedIndex (pageSize : Int) (pagesDir : String) : PagedInvertedIndex :=
  { PageSize := pageSize
    PagesDir := pagesDir
    CurrentID := 0
    CurrentIdx := []
    BloomAdded := [] }

/-- A freshly constructed engine with an empty page directory. -/
def initState (pageSize : Int) (pagesDir : String) : SysState :=
  ⟨NewPagedInvertedIndex pageSize pagesDir, []⟩

/-- `FlushToDisk`: serialize the current segment as a page, write it to
`pageDirectory/page_<CurrentID>.json`, then increment the counter and reset
the segment.  `marshalOk` and `writeOk` are the success of `json.Marshal`
and `os.WriteFile`; on either failure the Go function logs and returns
before mutating anything. -/
def FlushToDisk (s : SysState) (marshalOk writeOk : Bool) : SysState :=
  if marshalOk = false then s
  else if writeOk = false then s
  else
    let page : Page := ⟨s.pii.CurrentID, s.pii.CurrentIdx⟩
    ⟨{ s.pii with CurrentID := s.pii.CurrentID + 1, CurrentIdx := [] },
      writeFile s.fs (pageFileName s.pii.PagesDir s.pii.CurrentID) (PageFile.good page)⟩

/-- One iteration of the token loop of `UpdateInvertedIndexWithDoc`: append
the posting, add the token to the Bloom filter, and flush if the number of
distinct terms in the segment has reached `PageSize`.  `mw` carries the
success flags of the flush's `json.Marshal` and `os.WriteFile`. -/
def ingestToken (s : SysState) (docID : Int) (token : String) (mw : Bool × Bool) : SysState :=
  let idx := insertPosting s.pii.CurrentIdx token docID
  let s' : SysState :=
    ⟨{ s.pii with CurrentIdx := idx, BloomAdded := bloomAdd s.pii.BloomAdded token }, s.fs⟩
  if (idx.length : Int) ≥ s.pii.PageSize then FlushToDisk s' mw.1 mw.2 else s'

/-- The token loop of `UpdateInvertedIndexWithDoc`, consuming one pair of
I/O success flags per token (`(true, true)` when the list runs out). -/
def ingestTokens (docID : Int) : SysState → List String → List (Bool × Bool) → SysState
  | s, [], _ => s
  | s, tok :: toks, mws =>
    ingestTokens docID (ingestToken s docID tok (mws.headD (true, true))) toks mws.tail

/-- A document: `{id: integer, content: string}` (external document model). -/
structure Document where
  ID : Int
  Content : String

/-- The token sequence `UpdateInvertedIndexWithDoc` produces from a document:
the external tokenizer on the lower-cased content, or the naive lower-case
whitespace split. -/
def tokensOf (tokenize : String → List String) (useTokenizer : Bool) (content : String) :
    List String :=
  if useTokenizer then tokenize (toLowerStr content) else fields (toLowerStr content)

/-- `UpdateInvertedIndexWithDoc(doc, useTokenizer)`: tokenize the content and
run the token loop.  `tokenize` is the external `nlp.Tokenize_Query`. -/
def UpdateInvertedIndexWithDoc (s : SysState) (doc : Document) (useTokenizer : Bool)
    (tokenize : String → List String) (mws : List (Bool × Bool)) : SysState :=
  ingestTokens doc.ID s (tokensOf tokenize useTokenizer doc.Content) mws

/-- `removeDuplicates`'s loop: `uniqueMap` is the seen-set, `uniqueSlice` the
output accumulator keeping first occurrences in order. -/
def removeDuplicatesLoop (uniqueMap : List Int) (uniqueSlice : List Int) :
    List Int → List Int
  | [] => uniqueSlice
  | item :: rest =>
    if uniqueMap.contains item then removeDuplicatesLoop uniqueMap uniqueSlice rest
    else removeDuplicatesLoop (item :: uniqueMap) (uniqueSlice ++ [item]) rest

/-- `removeDuplicates(input)`: drop repeated elements, keeping first
occurrences in order. -/
def removeDuplicates (input : List Int) : List Int :=
  removeDuplicatesLoop [] [] input

/-- The page-scan loop of `Search`: for each directory entry, skip it if the
read or deserialization fails, and otherwise append the page's posting list
for the term (when the term key exists). -/
def scanPages : PageStore → String → List Int
  | [], _ => []
  | (_, PageFile.bad) :: rest, t => scanPages rest t
  | (_, PageFile.good p) :: rest, t =>
    match lookupIdx p.Index t with
    | some docIDs => docIDs ++ scanPages rest t
    | none => scanPages rest t

/-- The possible outcomes of `pii.BloomFilter.Test`: an internal error, or a
boolean containment answer. -/
inductive FilterAnswer where
  | err : FilterAnswer
  | ok : Bool → FilterAnswer

/-- `Search`'s control flow, parameterized by the filter's answer and the
result of `os.ReadDir` (`none` = directory read error): each error path and
the filter-absent path return the empty accumulator; otherwise every page
file is scanned and the accumulated ids are deduplicated. -/
def searchCore (ans : FilterAnswer) (dir : Option PageStore) (term : String) : List Int :=
  match ans with
  | FilterAnswer.err => []
  | FilterAnswer.ok false => []
  | FilterAnswer.ok true =>
    match dir with
    | none => []
    | some files => removeDuplicates (scanPages files term)

/-- `Search(term)` of the engine: the filter answer comes from the modelled
Bloom filter and the directory read succeeds, returning the page store. -/
def Search (s : SysState) (term : String) : List Int :=
  searchCore (FilterAnswer.ok (bloomTest s.pii.BloomAdded term)) (some s.fs) term

/-- `BuildInvertedIndex` / trace operations: one engine-mutating call. -/
inductive Op where
  | ingest : Document → Bool → List (Bool × Bool) → Op
  | flush : Bool → Bool → Op

/-- Apply one operation to the engine state. -/
def applyOp (tokenize : String → List String) (s : SysState) : Op → SysState
  | Op.ingest doc useTokenizer mws => UpdateInvertedIndexWithDoc s doc useTokenizer tokenize mws
  | Op.flush marshalOk writeOk => FlushToDisk s marshalOk writeOk

/-- Run a sequence of operations from a state. -/
def run (tokenize : String → List String) (s : SysState) (ops : List Op) : SysState :=
  ops.foldl (applyOp tokenize) s

/-- The postings for `t` durably contain `d`: some readable, well-formed page
of the store maps `t` to a posting list containing `d`. -/
def DurablyPosted (fs : PageStore) (t : String) (d : Int) : Prop :=
  ∃ f ∈ fs, ∃ p : Page, f.2 = PageFile.good p ∧
    ∃ l, lookupIdx p.Index t = some l ∧ d ∈ l

/-- `removeStopwords(query)` of `stopword_cleaning.go`.  `detectLanguage` is
the external `nlp.DetectLanguage` and `cleanString` the external
`stopwords.CleanString` (called with HTML-stripping flag `true`). -/
def removeStopwords (detectLanguage : String → String × Bool)
    (cleanString : String → String → Bool → String) (query : String) : String :=
  let language := (detectLanguage query).1
  let isExist := (detectLanguage query).2
  if isExist = false then query
  else
    let cleaned_query := cleanString query language true
    if cleaned_query = "" then query else cleaned_query

/-- The readable-page invariant of a store produced by successful flushes:
the files are exactly the good pages, named after their ids, and the ids in
write order are `0, 1, …, n-1`. -/
def StoreShape (dir : String) (n : Nat) (fs : PageStore) : Prop :=
  ∃ pages : List Page,
    fs = pages.map (fun p => (pageFileName dir p.ID, PageFile.good p)) ∧
    pages.map Page.ID = List.range n

/-- Engine invariant: the configured directory never changes and the page
store has the successful-flush shape for the current counter value. -/
def EngineInv (dir : String) (s : SysState) : Prop :=
  s.pii.PagesDir = dir ∧ StoreShape dir s.pii.CurrentID s.fs

/-! ## Lemmas about `removeDuplicates` -/

theorem mem_removeDuplicatesLoop_of_mem_slice {x : Int} :
    ∀ (l m s : List Int), x ∈ s → x ∈ removeDuplicatesLoop m s l := by
  intro l
  induction l with
  | nil => intro m s hx; simpa [removeDuplicatesLoop] using hx
  | cons item rest ih =>
    intro m s hx
    simp only [removeDuplicatesLoop]
    split
    · exact ih m s hx
    · exact ih _ _ (List.mem_append_left _ hx)

theorem list_contains_iff {α : Type} [BEq α] [LawfulBEq α] (m : List α) (x : α) :
    m.contains x = true ↔ x ∈ m := by
  simp [List.contains]

theorem mem_removeDuplicatesLoop_of_mem {x : Int} :
    ∀ (l m s : List Int), x ∈ l → (x ∈ m → x ∈ s) → x ∈ removeDuplicatesLoop m s l := by
  intro l
  induction l with
  | nil => intro m s hx _; simp at hx
  | cons item rest ih =>
    intro m s hx hms
    simp only [removeDuplicatesLoop]
    split
    · next hc =>
      rcases List.mem_cons.mp hx with rfl | hx'
      · exact mem_removeDuplicatesLoop_of_mem_slice rest _ _
          (hms ((list_contains_iff m x).mp hc))
      · exact ih m s hx' hms
    · rcases List.mem_cons.mp hx with rfl | hx'
      · exact mem_removeDuplicatesLoop_of_mem_slice rest _ _ (by simp)
      · refine ih _ _ hx' ?_
        intro hxm
        rcases List.mem_cons.mp hxm with rfl | hxm'
        · simp
        · exact List.mem_append_left _ (hms hxm')

theorem mem_removeDuplicates_of_mem {x : Int} {input : List Int} (hx : x ∈ input) :
    x ∈ removeDuplicates input :=
  mem_removeDuplicatesLoop_of_mem input [] [] hx (by simp)

theorem removeDuplicatesLoop_nodup :
    ∀ (l m s : List Int), s.Nodup → (∀ x ∈ s, x ∈ m) → (removeDuplicatesLoop m s l).Nodup := by
  intro l
  induction l with
  | nil => intro m s hs _; simpa [removeDuplicatesLoop] using hs
  | cons item rest ih =>
    intro m s hs hsm
    simp only [removeDuplicatesLoop]
    split
    · exact ih m s hs hsm
    · next hc =>
      refine ih _ _ ?_ ?_
      · refine List.Nodup.append hs (by simp) ?_
        intro a ha hb
        simp only [List.mem_singleton] at hb
        subst hb
        exact (fun h => hc ((list_contains_iff m a).mpr h)) (hsm a ha)
      · intro x hx
        rcases List.mem_append.mp hx with hx' | hx'
        · exact List.mem_cons_of_mem _ (hsm x hx')
        · simp only [List.mem_singleton] at hx'
          subst hx'
          exact List.mem_cons_self _ _

theorem removeDuplicates_nodup (input : List Int) : (removeDuplicates input).Nodup :=
  removeDuplicatesLoop_nodup input [] [] (by simp) (by simp)

theorem mem_of_mem_removeDuplicatesLoop {x : Int} :
    ∀ (l m s : List Int), x ∈ removeDuplicatesLoop m s l → x ∈ s ∨ x ∈ l := by
  intro l
  induction l with
  | nil => intro m s hx; exact Or.inl (by simpa [removeDuplicatesLoop] using hx)
  | cons item rest ih =>
    intro m s hx
    simp only [removeDuplicatesLoop] at hx
    split at hx
    · rcases ih m s hx with h | h
      · exact Or.inl h
      · exact Or.inr (List.mem_cons_of_mem _ h)
    · rcases ih _ _ hx with h | h
      · rcases List.mem_append.mp h with h' | h'
        · exact Or.inl h'
        · simp only [List.mem_singleton] at h'
          exact Or.inr (by simp [h'])
      · exact Or.inr (List.mem_cons_of_mem _ h)

theorem mem_of_mem_removeDuplicates {x : Int} {input : List Int}
    (hx : x ∈ removeDuplicates input) : x ∈ input := by
  rcases mem_of_mem_removeDuplicatesLoop input [] [] hx with h | h
  · simp at h
  · exact h

/-! ## Lemmas about `scanPages` -/

theorem scanPages_append (t : String) :
    ∀ l₁ l₂ : PageStore, scanPages (l₁ ++ l₂) t = scanPages l₁ t ++ scanPages l₂ t := by
  intro l₁
  induction l₁ with
  | nil => intro l₂; simp [scanPages]
  | cons f rest ih =>
    intro l₂
    obtain ⟨nm, pf⟩ := f
    cases pf with
    | bad => simpa [scanPages] using ih l₂
    | good p =>
      simp only [List.cons_append, scanPages]
      cases h : lookupIdx p.Index t with
      | none => exact ih l₂
      | some docIDs => simp [ih l₂]

theorem mem_scanPages_of_durable {fs : PageStore} {t : String} {d : Int}
    (h : DurablyPosted fs t d) : d ∈ scanPages fs t := by
  obtain ⟨f, hf, p, hfp, l, hl, hd⟩ := h
  induction fs with
  | nil => simp at hf
  | cons g rest ih =>
    rcases List.mem_cons.mp hf with rfl | hf'
    · obtain ⟨nm, pf⟩ := f
      simp only at hfp
      subst hfp
      simp [scanPages, hl]
      exact Or.inl hd
    · obtain ⟨nm, pf⟩ := g
      cases pf with
      | bad => simpa [scanPages] using ih hf'
      | good q =>
        simp only [scanPages]
        cases hq : lookupIdx q.Index t with
        | none => exact ih hf'
        | some ds => exact List.mem_append_right _ (ih hf')

theorem durable_of_mem_scanPages {t : String} {d : Int} :
    ∀ fs : PageStore, d ∈ scanPages fs t → DurablyPosted fs t d := by
  intro fs
  induction fs with
  | nil => intro h; simp [scanPages] at h
  | cons g rest ih =>
    intro h
    obtain ⟨nm, pf⟩ := g
    cases pf with
    | bad =>
      simp only [scanPages] at h
      obtain ⟨f, hf, hrest⟩ := ih h
      exact ⟨f, List.mem_cons_of_mem _ hf, hrest⟩
    | good q =>
      simp only [scanPages] at h
      cases hq : lookupIdx q.Index t with
      | none =>
        rw [hq] at h
        obtain ⟨f, hf, hrest⟩ := ih h
        exact ⟨f, List.mem_cons_of_mem _ hf, hrest⟩
      | some ds =>
        rw [hq] at h
        rcases List.mem_append.mp h with h' | h'
        · exact ⟨(nm, PageFile.good q), List.mem_cons_self _ _, q, rfl, ds, hq, h'⟩
        · obtain ⟨f, hf, hrest⟩ := ih h'
          exact ⟨f, List.mem_cons_of_mem _ hf, hrest⟩

/-! ## Lemmas about the filter state and flushing -/

theorem FlushToDisk_BloomAdded (s : SysState) (m w : Bool) :
    (FlushToDisk s m w).pii.BloomAdded = s.pii.BloomAdded := by
  cases m <;> cases w <;> simp [FlushToDisk]

theorem FlushToDisk_PagesDir (s : SysState) (m w : Bool) :
    (FlushToDisk s m w).pii.PagesDir = s.pii.PagesDir := by
  cases m <;> cases w <;> simp [FlushToDisk]

theorem ingestToken_BloomAdded (s : SysState) (d : Int) (tok : String) (mw : Bool × Bool) :
    (ingestToken s d tok mw).pii.BloomAdded = bloomAdd s.pii.BloomAdded tok := by
  simp only [ingestToken]
  split
  · rw [FlushToDisk_BloomAdded]
  · rfl

theorem mem_bloom_ingestTokens_of_mem {t : String} (d : Int) :
    ∀ (toks : List String) (s : SysState) (mws : List (Bool × Bool)),
      t ∈ s.pii.BloomAdded → t ∈ (ingestTokens d s toks mws).pii.BloomAdded := by
  intro toks
  induction toks with
  | nil => intro s mws h; simpa [ingestTokens] using h
  | cons tok rest ih =>
    intro s mws h
    simp only [ingestTokens]
    refine ih _ _ ?_
    rw [ingestToken_BloomAdded]
    exact List.mem_cons_of_mem _ h

theorem mem_bloom_ingestTokens_of_token {t : String} (d : Int) :
    ∀ (toks : List String) (s : SysState) (mws : List (Bool × Bool)),
      t ∈ toks → t ∈ (ingestTokens d s toks mws).pii.BloomAdded := by
  intro toks
  induction toks with
  | nil => intro s mws h; simp at h
  | cons tok rest ih =>
    intro s mws h
    rcases List.mem_cons.mp h with rfl | h'
    · simp only [ingestTokens]
      refine mem_bloom_ingestTokens_of_mem d rest _ _ ?_
      rw [ingestToken_BloomAdded]
      exact List.mem_cons_self _ _
    · simp only [ingestTokens]
      exact ih _ _ h'

theorem mem_bloom_applyOp_of_mem {t : String} (tokenize : String → List String)
    (s : SysState) (op : Op) :
    t ∈ s.pii.BloomAdded → t ∈ (applyOp tokenize s op).pii.BloomAdded := by
  cases op with
  | ingest doc ut mws =>
    intro h
    simp only [applyOp, UpdateInvertedIndexWithDoc]
    exact mem_bloom_ingestTokens_of_mem _ _ _ _ h
  | flush m w =>
    intro h
    simp only [applyOp]
    rw [FlushToDisk_BloomAdded]
    exact h

theorem mem_bloom_run_of_mem {t : String} (tokenize : String → List String) :
    ∀ (ops : List Op) (s : SysState),
      t ∈ s.pii.BloomAdded → t ∈ (run tokenize s ops).pii.BloomAdded := by
  intro ops
  induction ops with
  | nil => intro s h; simpa [run] using h
  | cons op rest ih =>
    intro s h
    simp only [run, List.foldl_cons]
    exact ih _ (mem_bloom_applyOp_of_mem tokenize s op h)

theorem mem_bloom_run_of_op {t : String} (tokenize : String → List String) :
    ∀ (ops : List Op) (s : SysState) (doc : Document) (ut : Bool)
      (mws : List (Bool × Bool)),
      Op.ingest doc ut mws ∈ ops → t ∈ tokensOf tokenize ut doc.Content →
      t ∈ (run tokenize s ops).pii.BloomAdded := by
  intro ops
  induction ops with
  | nil => intro s doc ut mws h _; simp at h
  | cons op rest ih =>
    intro s doc ut mws hop ht
    rcases List.mem_cons.mp hop with rfl | hop'
    · simp only [run, List.foldl_cons]
      refine mem_bloom_run_of_mem tokenize rest _ ?_
      simp only [applyOp, UpdateInvertedIndexWithDoc]
      exact mem_bloom_ingestTokens_of_token _ _ _ _ ht
    · simp only [run, List.foldl_cons]
      exact ih _ doc ut mws hop' ht

theorem mem_Search_of_durable {s : SysState} {t : String} {d : Int}
    (hb : t ∈ s.pii.BloomAdded) (hdur : DurablyPosted s.fs t d) : d ∈ Search s t := by
  have hc : bloomTest s.pii.BloomAdded t = true := (list_contains_iff _ _).mpr hb
  simp only [Search, hc, searchCore]
  exact mem_removeDuplicates_of_mem (mem_scanPages_of_durable hdur)

/-! ## Claims -/

/-- C3: `FlushToDisk` is atomic with respect to failure: if `json.Marshal`
or the file write fails, it returns without incrementing the `PageID`
counter and without resetting the in-memory segment, so the unflushed state
is fully retained. -/
theorem flushToDisk_failure_preserves_state (s : SysState) (marshalOk writeOk : Bool)
    (h : marshalOk = false ∨ writeOk = false) :
    FlushToDisk s marshalOk writeOk = s ∧
    (FlushToDisk s marshalOk writeOk).pii.CurrentID = s.pii.CurrentID ∧
    (FlushToDisk s marshalOk writeOk).pii.CurrentIdx = s.pii.CurrentIdx := by
  have heq : FlushToDisk s marshalOk writeOk = s := by
    rcases h with rfl | rfl
    · simp [FlushToDisk]
    · cases marshalOk <;> simp [FlushToDisk]
  exact ⟨heq, by rw [heq], by rw [heq]⟩

/-- Witness for C3 at a concrete engine state and a failing serialization. -/
theorem flushToDisk_failure_preserves_state_witness :
    FlushToDisk ⟨⟨2, "p", 0, [("cat", [7])], ["cat"]⟩, []⟩ false true =
      ⟨⟨2, "p", 0, [("cat", [7])], ["cat"]⟩, []⟩ :=
  (flushToDisk_failure_preserves_state ⟨⟨2, "p", 0, [("cat", [7])], ["cat"]⟩, []⟩
    false true (Or.inl rfl)).1

/-- C5: `Search` never fails: a filter error, a filter-absent answer, and a
page-directory read error each produce the empty result (the filter-absent
path without consulting the directory at all). -/
theorem search_error_paths_empty :
    (∀ (dir : Option PageStore) (t : String), searchCore FilterAnswer.err dir t = []) ∧
    (∀ (dir : Option PageStore) (t : String), searchCore (FilterAnswer.ok false) dir t = []) ∧
    (∀ (ans : FilterAnswer) (t : String), searchCore ans none t = []) := by
  refine ⟨fun dir t => rfl, fun dir t => rfl, fun ans t => ?_⟩
  cases ans with
  | err => rfl
  | ok b => cases b <;> rfl

/-- C6: for every term and every page-store contents (and every filter and
directory outcome), the list `Search` returns contains no duplicate
document ids. -/
theorem search_result_nodup :
    (∀ (ans : FilterAnswer) (dir : Option PageStore) (t : String),
      (searchCore ans dir t).Nodup) ∧
    (∀ (s : SysState) (t : String), (Search s t).Nodup) := by
  have h : ∀ (ans : FilterAnswer) (dir : Option PageStore) (t : String),
      (searchCore ans dir t).Nodup := by
    intro ans dir t
    cases ans with
    | err => simp [searchCore]
    | ok b =>
      cases b
      · simp [searchCore]
      · cases dir with
        | none => simp [searchCore]
        | some files =>
          simp only [searchCore]
          exact removeDuplicates_nodup _
  exact ⟨h, fun s t => h _ _ _⟩

/-- C7: a page file whose read or deserialization fails is skipped and only
skipped: the search result over a store containing such a file equals the
result over the store without it, so all readable pages still contribute. -/
theorem search_skips_bad_page :
    ∀ (ans : FilterAnswer) (pre post : PageStore) (nm t : String),
      searchCore ans (some (pre ++ (nm, PageFile.bad) :: post)) t =
        searchCore ans (some (pre ++ post)) t := by
  intro ans pre post nm t
  cases ans with
  | err => rfl
  | ok b =>
    cases b
    · rfl
    · simp only [searchCore]
      have hsplit : (nm, PageFile.bad) :: post = [(nm, PageFile.bad)] ++ post := rfl
      rw [hsplit, scanPages_append, scanPages_append, scanPages_append]
      simp [scanPages]

/-- C9: `removeStopwords` returns the query unchanged when language
detection reports not-found, falls back to the query when stripping yields
the empty string, and otherwise returns the stripped string. -/
theorem removeStopwords_cases (detectLanguage : String → String × Bool)
    (cleanString : String → String → Bool → String) (query : String) :
    ((detectLanguage query).2 = false →
      removeStopwords detectLanguage cleanString query = query) ∧
    ((detectLanguage query).2 = true →
      cleanString query (detectLanguage query).1 true = "" →
      removeStopwords detectLanguage cleanString query = query) ∧
    ((detectLanguage query).2 = true →
      cleanString query (detectLanguage query).1 true ≠ "" →
      removeStopwords detectLanguage cleanString query =
        cleanString query (detectLanguage query).1 true) := by
  refine ⟨fun h1 => ?_, fun h1 h2 => ?_, fun h1 h2 => ?_⟩
  · simp [removeStopwords, h1]
  · simp [removeStopwords, h1, h2]
  · simp [removeStopwords, h1, h2]

/-- Witness for C9: each of the three cases at concrete collaborators. -/
theorem removeStopwords_cases_witness :
    removeStopwords (fun _ => ("en", false)) (fun _ _ _ => "y") "hi" = "hi" ∧
    removeStopwords (fun _ => ("en", true)) (fun _ _ _ => "") "hi" = "hi" ∧
    removeStopwords (fun _ => ("en", true)) (fun _ _ _ => "y") "hi" = "y" :=
  ⟨(removeStopwords_cases (fun _ => ("en", false)) (fun _ _ _ => "y") "hi").1 rfl,
   (removeStopwords_cases (fun _ => ("en", true)) (fun _ _ _ => "") "hi").2.1 rfl rfl,
   (removeStopwords_cases (fun _ => ("en", true)) (fun _ _ _ => "y") "hi").2.2 rfl
     (by decide)⟩

/-- C10: ingesting a document whose content yields no tokens under the naive
path (`useTokenizer = false`) leaves the entire engine state unchanged: no
posting list, no filter entry, no counter change, no flush. -/
theorem ingest_empty_tokens_noop (s : SysState) (doc : Document)
    (tokenize : String → List String) (mws : List (Bool × Bool))
    (h : fields (toLowerStr doc.Content) = []) :
    UpdateInvertedIndexWithDoc s doc false tokenize mws = s := by
  simp [UpdateInvertedIndexWithDoc, tokensOf, h, ingestTokens]

/-- Witness for C10: whitespace-only content on a fresh engine. -/
theorem ingest_empty_tokens_noop_witness :
    UpdateInvertedIndexWithDoc (initState 2 "p") ⟨1, " "⟩ false (fun _ => []) [] =
      initState 2 "p" ∧
    fields (toLowerStr " ") = [] :=
  ⟨ingest_empty_tokens_noop (initState 2 "p") ⟨1, " "⟩ (fun _ => []) [] (by decide),
   by decide⟩

/-! ## Decimal filenames are injective in the page id -/

theorem natDecimalAux_congr :
    ∀ (n f g : Nat), n < f → n < g → natDecimalAux f n = natDecimalAux g n := by
  intro n
  induction n using Nat.strong_induction_on with
  | _ n ih =>
    intro f g hf hg
    cases f with
    | zero => omega
    | succ f' =>
      cases g with
      | zero => omega
      | succ g' =>
        simp only [natDecimalAux]
        split
        · rfl
        · next h10 =>
          rw [ih (n / 10) (Nat.div_lt_self (by omega) (by omega)) f' g'
            (by omega) (by omega)]

theorem natDecimal_eq (n : Nat) :
    natDecimal n =
      if n < 10 then [digitChar n] else natDecimal (n / 10) ++ [digitChar (n % 10)] := by
  show natDecimalAux (n + 1) n = _
  simp only [natDecimalAux]
  split
  · rfl
  · next h10 =>
    rw [natDecimalAux_congr (n / 10) n (n / 10 + 1) (by omega) (by omega)]
    rfl

theorem natDecimal_ne_nil (n : Nat) : natDecimal n ≠ [] := by
  rw [natDecimal_eq]
  split
  · simp
  · simp

theorem digitChar_inj : ∀ a < 10, ∀ b < 10, digitChar a = digitChar b → a = b := by decide

theorem natDecimal_inj : ∀ a b : Nat, natDecimal a = natDecimal b → a = b := by
  intro a
  induction a using Nat.strong_induction_on with
  | _ a ih =>
    intro b hab
    rw [natDecimal_eq] at hab
    rw [natDecimal_eq b] at hab
    by_cases ha : a < 10 <;> by_cases hb : b < 10
    · rw [if_pos ha, if_pos hb] at hab
      simp only [List.cons.injEq, and_true] at hab
      exact digitChar_inj a ha b hb hab
    · exfalso
      rw [if_pos ha, if_neg hb] at hab
      have hlen := congrArg List.length hab
      simp only [List.length_cons, List.length_nil, List.length_append] at hlen
      have hz : (natDecimal (b / 10)).length = 0 := by omega
      exact natDecimal_ne_nil _ (List.length_eq_zero.mp hz)
    · exfalso
      rw [if_neg ha, if_pos hb] at hab
      have hlen := congrArg List.length hab
      simp only [List.length_cons, List.length_nil, List.length_append] at hlen
      have hz : (natDecimal (a / 10)).length = 0 := by omega
      exact natDecimal_ne_nil _ (List.length_eq_zero.mp hz)
    · rw [if_neg ha, if_neg hb] at hab
      obtain ⟨h1, h2⟩ := List.append_inj' hab rfl
      have hd : a / 10 = b / 10 :=
        ih (a / 10) (Nat.div_lt_self (by omega) (by omega)) (b / 10) h1
      simp only [List.cons.injEq, and_true] at h2
      have hm : a % 10 = b % 10 :=
        digitChar_inj (a % 10) (by omega) (b % 10) (by omega) h2
      omega

theorem pageFileName_inj (dir : String) {i j : Nat}
    (h : pageFileName dir i = pageFileName dir j) : i = j := by
  have hdata : dir.data ++ "/page_".data ++ natDecimal i ++ ".json".data =
      dir.data ++ "/page_".data ++ natDecimal j ++ ".json".data :=
    congrArg String.data h
  have h1 := List.append_cancel_right hdata
  have h2 := List.append_cancel_left h1
  exact natDecimal_inj i j h2

/-! ## The page store invariant along any execution -/

theorem writeFile_fresh {name : String} {c : PageFile} :
    ∀ fs : PageStore, name ∉ fs.map Prod.fst → writeFile fs name c = fs ++ [(name, c)] := by
  intro fs
  induction fs with
  | nil => intro _; rfl
  | cons f rest ih =>
    intro h
    obtain ⟨n, d⟩ := f
    simp only [List.map_cons, List.mem_cons] at h
    push_neg at h
    simp only [writeFile]
    rw [if_neg (fun hh => h.1 hh.symm), ih h.2]
    rfl

theorem FlushToDisk_success (s : SysState) :
    FlushToDisk s true true =
      ⟨{ s.pii with CurrentID := s.pii.CurrentID + 1, CurrentIdx := [] },
        writeFile s.fs (pageFileName s.pii.PagesDir s.pii.CurrentID)
          (PageFile.good ⟨s.pii.CurrentID, s.pii.CurrentIdx⟩)⟩ := rfl

theorem FlushToDisk_fail (s : SysState) {m w : Bool} (h : m = false ∨ w = false) :
    FlushToDisk s m w = s := by
  rcases h with rfl | rfl
  · simp [FlushToDisk]
  · cases m <;> simp [FlushToDisk]

theorem storeShape_names {dir : String} {n : Nat} {fs : PageStore}
    (h : StoreShape dir n fs) : pageFileName dir n ∉ fs.map Prod.fst := by
  obtain ⟨pages, hfs, hids⟩ := h
  subst hfs
  intro hmem
  simp only [List.map_map, List.mem_map, Function.comp] at hmem
  obtain ⟨p, hp, hname⟩ := hmem
  have hid : p.ID = n := pageFileName_inj dir hname
  have hlt : p.ID ∈ List.range n := by
    rw [← hids]
    exact List.mem_map_of_mem _ hp
  rw [List.mem_range] at hlt
  omega

theorem engineInv_flush {dir : String} {s : SysState} (h : EngineInv dir s) :
    ∀ m w : Bool, EngineInv dir (FlushToDisk s m w) := by
  intro m w
  obtain ⟨hdir, pages, hfs, hids⟩ := h
  cases m with
  | false => rw [FlushToDisk_fail s (Or.inl rfl)]; exact ⟨hdir, pages, hfs, hids⟩
  | true =>
    cases w with
    | false => rw [FlushToDisk_fail s (Or.inr rfl)]; exact ⟨hdir, pages, hfs, hids⟩
    | true =>
      rw [FlushToDisk_success]
      refine ⟨hdir, pages ++ [⟨s.pii.CurrentID, s.pii.CurrentIdx⟩], ?_, ?_⟩
      · show writeFile s.fs (pageFileName s.pii.PagesDir s.pii.CurrentID)
            (PageFile.good ⟨s.pii.CurrentID, s.pii.CurrentIdx⟩) = _
        rw [hdir, writeFile_fresh s.fs (storeShape_names ⟨pages, hfs, hids⟩), hfs,
          List.map_append]
        rfl
      · show (pages ++ [(⟨s.pii.CurrentID, s.pii.CurrentIdx⟩ : Page)]).map Page.ID =
          List.range (s.pii.CurrentID + 1)
        rw [List.map_append, hids, List.range_succ]
        rfl

theorem engineInv_ingestToken {dir : String} {s : SysState} (h : EngineInv dir s)
    (d : Int) (tok : String) (mw : Bool × Bool) :
    EngineInv dir (ingestToken s d tok mw) := by
  obtain ⟨hdir, hshape⟩ := h
  simp only [ingestToken]
  split
  · refine engineInv_flush ?_ mw.1 mw.2
    exact ⟨hdir, hshape⟩
  · exact ⟨hdir, hshape⟩

theorem engineInv_ingestTokens {dir : String} (d : Int) :
    ∀ (toks : List String) (s : SysState) (mws : List (Bool × Bool)),
      EngineInv dir s → EngineInv dir (ingestTokens d s toks mws) := by
  intro toks
  induction toks with
  | nil => intro s mws h; simpa [ingestTokens] using h
  | cons tok rest ih =>
    intro s mws h
    simp only [ingestTokens]
    exact ih _ _ (engineInv_ingestToken h d tok _)

theorem engineInv_applyOp {dir : String} (tokenize : String → List String)
    {s : SysState} (h : EngineInv dir s) (op : Op) :
    EngineInv dir (applyOp tokenize s op) := by
  cases op with
  | ingest doc ut mws =>
    simp only [applyOp, UpdateInvertedIndexWithDoc]
    exact engineInv_ingestTokens _ _ _ _ h
  | flush m w =>
    simp only [applyOp]
    exact engineInv_flush h m w

theorem engineInv_run {dir : String} (tokenize : String → List String) :
    ∀ (ops : List Op) (s : SysState),
      EngineInv dir s → EngineInv dir (run tokenize s ops) := by
  intro ops
  induction ops with
  | nil => intro s h; simpa [run] using h
  | cons op rest ih =>
    intro s h
    simp only [run, List.foldl_cons]
    exact ih _ (engineInv_applyOp tokenize h op)

theorem engineInv_init (pageSize : Int) (dir : String) :
    EngineInv dir (initState pageSize dir) :=
  ⟨rfl, [], rfl, rfl⟩

/-- C1: for every document ingested via `UpdateInvertedIndexWithDoc` during a
run and every term of its token sequence, once the postings for that term
are durable in the page store, `Search` on that term includes the document's
id in its result. -/
theorem search_finds_flushed_postings (tokenize : String → List String) (pageSize : Int)
    (dir : String) (ops : List Op) (doc : Document) (useTokenizer : Bool)
    (mws : List (Bool × Bool)) (t : String)
    (hop : Op.ingest doc useTokenizer mws ∈ ops)
    (ht : t ∈ tokensOf tokenize useTokenizer doc.Content)
    (hdur : DurablyPosted (run tokenize (initState pageSize dir) ops).fs t doc.ID) :
    doc.ID ∈ Search (run tokenize (initState pageSize dir) ops) t :=
  mem_Search_of_durable
    (mem_bloom_run_of_op tokenize ops (initState pageSize dir) doc useTokenizer mws hop ht)
    hdur

/-- Witness for C1: one document flushed to one page, then found. -/
theorem search_finds_flushed_postings_witness :
    (7 : Int) ∈ Search (run (fun _ => []) (initState 1 "p")
      [Op.ingest ⟨7, "cat"⟩ false []]) "cat" := by
  refine search_finds_flushed_postings (fun _ => []) 1 "p"
    [Op.ingest ⟨7, "cat"⟩ false []] ⟨7, "cat"⟩ false [] "cat"
    (List.mem_singleton.mpr rfl) (by decide) ?_
  exact ⟨(pageFileName "p" 0, PageFile.good ⟨0, [("cat", [7])]⟩), by decide,
    ⟨0, [("cat", [7])]⟩, rfl, [7], by decide, by decide⟩

/-- C2: the flush trigger is evaluated after every ingested token: exactly
when the distinct-term count of the post-insert segment is at least
`PageSize`, the token's ingestion flushes — appending exactly one new page
file named after the pre-flush counter value and carrying it as its
`PageID`, and leaving the in-memory segment empty — and otherwise no file
is written and the segment keeps the new posting. -/
theorem flush_trigger_per_token (s : SysState) (d : Int) (tok : String)
    (hfresh : pageFileName s.pii.PagesDir s.pii.CurrentID ∉ s.fs.map Prod.fst) :
    (((insertPosting s.pii.CurrentIdx tok d).length : Int) ≥ s.pii.PageSize →
      ingestToken s d tok (true, true) =
        ⟨{ s.pii with
            CurrentID := s.pii.CurrentID + 1
            CurrentIdx := []
            BloomAdded := bloomAdd s.pii.BloomAdded tok },
          s.fs ++ [(pageFileName s.pii.PagesDir s.pii.CurrentID,
            PageFile.good ⟨s.pii.CurrentID, insertPosting s.pii.CurrentIdx tok d⟩)]⟩) ∧
    (¬ (((insertPosting s.pii.CurrentIdx tok d).length : Int) ≥ s.pii.PageSize) →
      ingestToken s d tok (true, true) =
        ⟨{ s.pii with
            CurrentIdx := insertPosting s.pii.CurrentIdx tok d
            BloomAdded := bloomAdd s.pii.BloomAdded tok }, s.fs⟩) := by
  constructor
  · intro htrig
    simp only [ingestToken, if_pos htrig]
    rw [FlushToDisk_success]
    rw [writeFile_fresh s.fs hfresh]
  · intro hno
    simp only [ingestToken, if_neg hno]

/-- Witness for C2: `PageSize = 1`, a fresh engine, one token triggers one
flush of `page_0.json`. -/
theorem flush_trigger_per_token_witness :
    ingestToken (initState 1 "p") 7 "cat" (true, true) =
      ⟨⟨1, "p", 1, [], ["cat"]⟩,
        [(pageFileName "p" 0, PageFile.good ⟨0, [("cat", [7])]⟩)]⟩ := by
  have h := (flush_trigger_per_token (initState 1 "p") 7 "cat" (by decide)).1 (by decide)
  simpa using h

/-- C4: `Search` never consults the in-memory segment: its result does not
depend on `CurrentIdx` at all, and a document id whose postings for a term
live only in the not-yet-flushed segment is absent from the result,
whatever the filter answers. -/
theorem search_ignores_inMemory_segment (s : SysState) (t : String) (d : Int)
    (hmem : ∃ l, lookupIdx s.pii.CurrentIdx t = some l ∧ d ∈ l)
    (hnot : ¬ DurablyPosted s.fs t d) :
    (∀ idx : InvertedIndex,
      Search ⟨{ s.pii with CurrentIdx := idx }, s.fs⟩ t = Search s t) ∧
    (∀ ans : FilterAnswer, d ∉ searchCore ans (some s.fs) t) ∧
    d ∉ Search s t := by
  have hcore : ∀ ans : FilterAnswer, d ∉ searchCore ans (some s.fs) t := by
    intro ans hd
    cases ans with
    | err => simp [searchCore] at hd
    | ok b =>
      cases b
      · simp [searchCore] at hd
      · simp only [searchCore] at hd
        exact hnot (durable_of_mem_scanPages s.fs (mem_of_mem_removeDuplicates hd))
  exact ⟨fun idx => rfl, hcore, hcore _⟩

/-- Witness for C4: a term present only in the in-memory segment (and in the
filter) is not returned by `Search`. -/
theorem search_ignores_inMemory_segment_witness :
    (7 : Int) ∉ Search ⟨⟨2, "p", 0, [("cat", [7])], ["cat"]⟩, []⟩ "cat" :=
  (search_ignores_inMemory_segment ⟨⟨2, "p", 0, [("cat", [7])], ["cat"]⟩, []⟩ "cat" 7
    ⟨[7], by decide, by decide⟩
    (fun h => by obtain ⟨f, hf, _⟩ := h; simp at hf)).2.2

/-- C8: the engine is constructed with `CurrentID = 0`; a successful flush
consumes exactly one `PageID` and writes `pageDirectory/page_<PageID>.json`
with that id; and along any run from a fresh engine the page files are, in
write order, `page_0.json, page_1.json, …`, with pairwise-distinct,
strictly increasing ids `0, 1, …, CurrentID - 1` — never reused. -/
theorem pageIDs_strictly_increasing (tokenize : String → List String) (pageSize : Int)
    (dir : String) (ops : List Op) :
    (initState pageSize dir).pii.CurrentID = 0 ∧
    (∀ s : SysState, (FlushToDisk s true true).pii.CurrentID = s.pii.CurrentID + 1) ∧
    (∀ s : SysState, (FlushToDisk s true true).fs =
      writeFile s.fs (pageFileName s.pii.PagesDir s.pii.CurrentID)
        (PageFile.good ⟨s.pii.CurrentID, s.pii.CurrentIdx⟩)) ∧
    ∃ pages : List Page,
      (run tokenize (initState pageSize dir) ops).fs =
        pages.map (fun p => (pageFileName dir p.ID, PageFile.good p)) ∧
      pages.map Page.ID =
        List.range (run tokenize (initState pageSize dir) ops).pii.CurrentID := by
  refine ⟨rfl, fun s => by rw [FlushToDisk_success], fun s => by rw [FlushToDisk_success], ?_⟩
  obtain ⟨_, pages, hfs, hids⟩ :=
    engineInv_run tokenize ops (initState pageSize dir) (engineInv_init pageSize dir)
  exact ⟨pages, hfs, hids⟩
